import Mathlib

/-!
Verification of the change/history subsystem of the visbug-editor repository.

The development shallowly embeds `src/features/history.js` (the `Change`
hierarchy and the `HistoryManager`) and the commit handler of the position
tool's `draggable` (`src/features/position.js`).  DOM elements are modelled
as entries of an association list keyed by an element identity; JavaScript
reference equality on elements becomes equality of identities.  `Date.now()`
is modelled by an explicit `now : Int` argument threaded to every operation
that reads the clock.  Exceptions thrown while applying a change are
modelled by a `Bool` flag returned next to the (possibly partially mutated)
DOM.  Event listeners are modelled by returning the list of `state`
snapshots that `emit("change", this.state)` would have delivered.
-/

set_option autoImplicit false

namespace VisBug

/-! ## DOM model -/

/-- The mutable state of one DOM element: connectedness, inline style
declarations, attributes, and text content. -/
structure ElemState where
  isConnected : Bool
  style : List (String × String)
  attrs : List (String × String)
  text : String
deriving DecidableEq, Repr

/-- The document: an association list from element identity to its state.
An identity absent from the list models a `null` element reference. -/
abbrev Dom := List (Nat × ElemState)

/-- Set key `k` to `v` in an association list (update the first occurrence,
else append). -/
def assocSet : List (String × String) → String → String → List (String × String)
  | [], k, v => [(k, v)]
  | (k', v') :: rest, k, v =>
    if k' = k then (k, v) :: rest else (k', v') :: assocSet rest k v

/-- Look up key `k` in an association list. -/
def assocGet : List (String × String) → String → Option String
  | [], _ => none
  | (k', v') :: rest, k => if k' = k then some v' else assocGet rest k

/-- Remove key `k` from an association list (`removeAttribute`). -/
def assocRemove : List (String × String) → String → List (String × String)
  | [], _ => []
  | (k', v') :: rest, k => if k' = k then rest else (k', v') :: assocRemove rest k

/-- Find the state of element `id` in the document. -/
def domFind : Dom → Nat → Option ElemState
  | [], _ => none
  | (i, e) :: rest, id => if i = id then some e else domFind rest id

/-- Replace the state of element `id` in the document. -/
def domSet : Dom → Nat → ElemState → Dom
  | [], _, _ => []
  | (i, e) :: rest, id, e' =>
    if i = id then (i, e') :: rest else (i, e) :: domSet rest id e'

/-- `element && element.isConnected`: false when the reference is null or
the element is detached. -/
def domConnected (d : Dom) (id : Nat) : Bool :=
  match domFind d id with
  | some e => e.isConnected
  | none => false

/-- `element.style[property] = value`, guarded by the connectedness check
used by every `Change` variant. -/
def domSetStyle (d : Dom) (id : Nat) (prop v : String) : Dom :=
  match domFind d id with
  | some e =>
    if e.isConnected then domSet d id { e with style := assocSet e.style prop v } else d
  | none => d

/-- `setAttribute` (for `some v`) or `removeAttribute` (for `none`),
guarded by the connectedness check. -/
def domSetAttr (d : Dom) (id : Nat) (a : String) (v : Option String) : Dom :=
  match domFind d id with
  | some e =>
    if e.isConnected then
      match v with
      | none => domSet d id { e with attrs := assocRemove e.attrs a }
      | some s => domSet d id { e with attrs := assocSet e.attrs a s }
    else d
  | none => d

/-- `element.textContent = t`, guarded by the connectedness check. -/
def domSetText (d : Dom) (id : Nat) (t : String) : Dom :=
  match domFind d id with
  | some e => if e.isConnected then domSet d id { e with text := t } else d
  | none => d

/-- Read `element.style[property]`. -/
def domStyle (d : Dom) (id : Nat) (prop : String) : Option String :=
  match domFind d id with
  | some e => assocGet e.style prop
  | none => none

/-- Read `element.getAttribute(a)` (`none` models `null`). -/
def domAttr (d : Dom) (id : Nat) (a : String) : Option String :=
  match domFind d id with
  | some e => assocGet e.attrs a
  | none => none

/-- Read `element.textContent`. -/
def domText (d : Dom) (id : Nat) : Option String :=
  match domFind d id with
  | some e => some e.text
  | none => none

/-! ## Change hierarchy (history.js) -/

/-- The `Change` class hierarchy of history.js as a closed sum:
`base` is a bare `new Change()` (whose `undo`/`redo` throw),
`style` is `StyleChange`, `attr` is `AttributeChange`, `text` is
`TextChange`, and `batch` is `BatchChange`.  Every constructor records the
`timestamp` set by the base-class constructor from `Date.now()`.
`DOMChange` is not embedded: no claim mentions it. -/
inductive Change where
  | base (timestamp : Int)
  | style (timestamp : Int) (element : Nat) (property oldValue newValue : String)
  | attr (timestamp : Int) (element : Nat) (attrName : String)
      (oldValue newValue : Option String)
  | text (timestamp : Int) (element : Nat) (oldText newText : String)
  | batch (timestamp : Int) (changes : List Change)

/-- The `timestamp` field shared by all variants. -/
def Change.timestampOf : Change → Int
  | .base t => t
  | .style t _ _ _ _ => t
  | .attr t _ _ _ _ => t
  | .text t _ _ _ => t
  | .batch t _ => t

mutual

/-- `change.undo()` run against a document; the `Bool` is true when the
call threw an exception (only the base class throws).  A `BatchChange`
undoes its members in reverse order, stopping at the first exception with
the mutations made so far kept (JavaScript exception semantics). -/
def Change.undo : Change → Dom → Dom × Bool
  | .base _, d => (d, true)
  | .style _ el prop ov _, d => (domSetStyle d el prop ov, false)
  | .attr _ el a ov _, d => (domSetAttr d el a ov, false)
  | .text _ el ot _, d => (domSetText d el ot, false)
  | .batch _ cs, d => Change.undoListRev cs d

/-- Undo a list of changes in reverse order (the loop of
`BatchChange.undo`). -/
def Change.undoListRev : List Change → Dom → Dom × Bool
  | [], d => (d, false)
  | c :: rest, d =>
    let r := Change.undoListRev rest d
    if r.2 then r else Change.undo c r.1

end

mutual

/-- `change.redo()` run against a document; the `Bool` is true when the
call threw.  A `BatchChange` redoes its members in original order. -/
def Change.redo : Change → Dom → Dom × Bool
  | .base _, d => (d, true)
  | .style _ el prop _ nv, d => (domSetStyle d el prop nv, false)
  | .attr _ el a _ nv, d => (domSetAttr d el a nv, false)
  | .text _ el _ nt, d => (domSetText d el nt, false)
  | .batch _ cs, d => Change.redoListFwd cs d

/-- Redo a list of changes in original order (the loop of
`BatchChange.redo`). -/
def Change.redoListFwd : List Change → Dom → Dom × Bool
  | [], d => (d, false)
  | c :: rest, d =>
    let r := Change.redo c d
    if r.2 then r else Change.redoListFwd rest r.1

end

/-- `this.canMerge(other)`.  Only `StyleChange` overrides the base class's
constant-false: same element reference, same property, and
`other.timestamp - this.timestamp < 1000` — the literal `1000` of
history.js, independent of any configuration. -/
def Change.canMerge : Change → Change → Bool
  | .style ts el prop _ _, .style ts2 el2 prop2 _ _ =>
    el2 == el && prop2 == prop && decide (ts2 - ts < 1000)
  | _, _ => false

/-- `this.merge(other)` at wall-clock time `now`.  `StyleChange.merge`
builds a fresh `StyleChange` (hence a fresh `Date.now()` timestamp) keeping
this change's `oldValue` and taking `other.newValue`; the base class
returns `this`.  The style-against-non-style case is never reached by the
manager because `merge` is only invoked after `canMerge` succeeded. -/
def Change.merge (now : Int) : Change → Change → Change
  | .style _ el prop ov _, .style _ _ _ _ nv2 => .style now el prop ov nv2
  | c, _ => c

/-! ## HistoryManager (history.js) -/

/-- The data carried by `emit("change", this.state)`: the manager's `state`
getter at emission time. -/
structure Snapshot where
  canUndo : Bool
  canRedo : Bool
  undoSize : Nat
  redoSize : Nat
  batchMode : Bool
deriving DecidableEq, Repr

/-- The fields of a `HistoryManager`.  The `listeners` map is not embedded:
emissions are returned to the caller instead (see `OpResult.emitted`). -/
structure HistoryManager where
  undoStack : List Change
  redoStack : List Change
  maxSize : Nat
  batchMode : Bool
  batchedChanges : List Change
  mergeTimeout : Int

/-- `new HistoryManager(options)`.  `options.maxSize || 50` and
`options.mergeTimeout || 1000`: a missing option — and, JavaScript `||`
being falsy-based, an explicit `0` — falls back to the default. -/
def mkHistoryManager (maxSize? : Option Nat) (mergeTimeout? : Option Int) :
    HistoryManager :=
  { undoStack := []
    redoStack := []
    maxSize := match maxSize? with
      | some n => if n = 0 then 50 else n
      | none => 50
    batchMode := false
    batchedChanges := []
    mergeTimeout := match mergeTimeout? with
      | some t => if t = 0 then 1000 else t
      | none => 1000 }

/-- `canUndo()`. -/
def HistoryManager.canUndo (h : HistoryManager) : Bool :=
  decide (0 < h.undoStack.length)

/-- `canRedo()`. -/
def HistoryManager.canRedo (h : HistoryManager) : Bool :=
  decide (0 < h.redoStack.length)

/-- The `state` getter. -/
def HistoryManager.state (h : HistoryManager) : Snapshot :=
  { canUndo := h.canUndo
    canRedo := h.canRedo
    undoSize := h.undoStack.length
    redoSize := h.redoStack.length
    batchMode := h.batchMode }

/-- `getHistory()`: the undo stack, oldest first. -/
def HistoryManager.getHistory (h : HistoryManager) : List Change :=
  h.undoStack

/-- Result of an operation that can emit: the updated manager and the
`state` snapshots delivered to `"change"` listeners, in order. -/
structure OpResult where
  mgr : HistoryManager
  emitted : List Snapshot

/-- The argument of `push`: a single `Change` or an array of them
(the duck-typed `Array.isArray` dispatch made explicit). -/
inductive PushInput where
  | one (c : Change)
  | many (cs : List Change)

/-- The array-normalisation prefix of `push` outside batch mode: an empty
array returns early, a singleton unwraps, two or more wrap into a
`BatchChange` (whose constructor stamps `Date.now()`). -/
def normalizeInput (now : Int) : PushInput → Option Change
  | .one c => some c
  | .many [] => none
  | .many [c] => some c
  | .many cs => some (.batch now cs)

/-- The tail of `push` after the merge attempt failed or was impossible:
append, clear the redo stack, `shift()` once when over `maxSize`, and emit
the resulting `state`. -/
def HistoryManager.pushNormal (h : HistoryManager) (c : Change) : OpResult :=
  let s1 := h.undoStack ++ [c]
  let s2 := if h.maxSize < s1.length then s1.drop 1 else s1
  let h2 := { h with undoStack := s2, redoStack := ([] : List Change) }
  { mgr := h2, emitted := [h2.state] }

/-- `push(change)` at wall-clock time `now`.  In batch mode the input is
appended (spread for arrays) to `batchedChanges` and nothing else happens.
Otherwise the input is normalised, a merge with the top of the undo stack
is attempted — on success the top is replaced in place, the redo stack is
cleared, and `push` returns without emitting — and otherwise the change is
pushed normally. -/
def HistoryManager.push (h : HistoryManager) (now : Int) (input : PushInput) :
    OpResult :=
  if h.batchMode then
    match input with
    | .one c => { mgr := { h with batchedChanges := h.batchedChanges ++ [c] }, emitted := [] }
    | .many cs => { mgr := { h with batchedChanges := h.batchedChanges ++ cs }, emitted := [] }
  else
    match normalizeInput now input with
    | none => { mgr := h, emitted := [] }
    | some c =>
      match h.undoStack.getLast? with
      | some last =>
        if last.canMerge c then
          { mgr := { h with
              undoStack := h.undoStack.dropLast ++ [last.merge now c],
              redoStack := ([] : List Change) },
            emitted := [] }
        else h.pushNormal c
      | none => h.pushNormal c

/-- `beginBatch()`: sets the flag and unconditionally resets the
accumulation buffer. -/
def HistoryManager.beginBatch (h : HistoryManager) : HistoryManager :=
  { h with batchMode := true, batchedChanges := ([] : List Change) }

/-- `endBatch()` at wall-clock time `now`.  With a non-empty buffer it
pushes one `BatchChange` directly onto the undo stack (no merge attempt),
clears the redo stack, enforces the bound, and emits — note the emission
happens before `batchMode`/`batchedChanges` are reset, so the snapshot
still carries the old `batchMode`.  Afterwards batch mode is off and the
buffer empty. -/
def HistoryManager.endBatch (h : HistoryManager) (now : Int) : OpResult :=
  if 0 < h.batchedChanges.length then
    let s1 := h.undoStack ++ [Change.batch now h.batchedChanges]
    let s2 := if h.maxSize < s1.length then s1.drop 1 else s1
    let mid := { h with undoStack := s2, redoStack := ([] : List Change) }
    { mgr := { mid with batchMode := false, batchedChanges := ([] : List Change) }
      emitted := [mid.state] }
  else
    { mgr := { h with batchMode := false, batchedChanges := ([] : List Change) }
      emitted := [] }

/-- Result of `undo()`/`redo()`: manager, document, the boolean return
value, and the emitted snapshots. -/
structure StepResult where
  mgr : HistoryManager
  dom : Dom
  ok : Bool
  emitted : List Snapshot

/-- `undo()`: early-out on an empty stack; otherwise pop, run the change's
`undo()`, and on success move the entry to the redo stack and emit; on an
exception push the entry back and return `false` without emitting. -/
def HistoryManager.undo (h : HistoryManager) (d : Dom) : StepResult :=
  match h.undoStack.getLast? with
  | none => { mgr := h, dom := d, ok := false, emitted := [] }
  | some change =>
    let rest := h.undoStack.dropLast
    let r := change.undo d
    if r.2 then
      { mgr := { h with undoStack := rest ++ [change] }, dom := r.1, ok := false
        emitted := [] }
    else
      let h2 := { h with undoStack := rest, redoStack := h.redoStack ++ [change] }
      { mgr := h2, dom := r.1, ok := true, emitted := [h2.state] }

/-- `redo()`: symmetric to `undo()`; note the source applies no size bound
when moving the entry back onto the undo stack. -/
def HistoryManager.redo (h : HistoryManager) (d : Dom) : StepResult :=
  match h.redoStack.getLast? with
  | none => { mgr := h, dom := d, ok := false, emitted := [] }
  | some change =>
    let rest := h.redoStack.dropLast
    let r := change.redo d
    if r.2 then
      { mgr := { h with redoStack := rest ++ [change] }, dom := r.1, ok := false
        emitted := [] }
    else
      let h2 := { h with undoStack := h.undoStack ++ [change], redoStack := rest }
      { mgr := h2, dom := r.1, ok := true, emitted := [h2.state] }

/-- `clear()`. -/
def HistoryManager.clear (h : HistoryManager) : OpResult :=
  let h2 := { h with undoStack := ([] : List Change), redoStack := ([] : List Change),
                     batchedChanges := ([] : List Change), batchMode := false }
  { mgr := h2, emitted := [h2.state] }

/-! ## Operation sequences (for whole-run invariants) -/

/-- One public operation on the manager. -/
inductive HOp where
  | pushOp (now : Int) (input : PushInput)
  | beginBatchOp
  | endBatchOp (now : Int)
  | undoOp
  | redoOp
  | clearOp

/-- Run one operation on a manager/document pair. -/
def execOp (hd : HistoryManager × Dom) : HOp → HistoryManager × Dom
  | .pushOp now input => ((hd.1.push now input).mgr, hd.2)
  | .beginBatchOp => (hd.1.beginBatch, hd.2)
  | .endBatchOp now => ((hd.1.endBatch now).mgr, hd.2)
  | .undoOp => let r := hd.1.undo hd.2; (r.mgr, r.dom)
  | .redoOp => let r := hd.1.redo hd.2; (r.mgr, r.dom)
  | .clearOp => ((hd.1.clear).mgr, hd.2)

/-- Run a sequence of operations. -/
def execOps (hd : HistoryManager × Dom) (ops : List HOp) : HistoryManager × Dom :=
  ops.foldl execOp hd

/-! ## Position tool: draggable commit handler (position.js) -/

/-- The inputs of `onMouseUp` that feed its history-recording logic: for an
HTML element the captured `state.initialPosition` (if a mouse-down stored
one) and the current `el.style.left`/`el.style.top`; for an SVG element the
captured `state.initialTransform` and the current `transform` attribute
(`none` models `null`). -/
inductive DragInfo where
  | html (initialPosition : Option (String × String)) (currentLeft currentTop : String)
  | svg (initialTransform translate : Option String)

/-- The history-relevant behaviour of `draggable`'s `onMouseUp` at
wall-clock time `now`, for a target with identity `elId`, a history
manager present, and accumulated `state.travelDistance`.  Returns the
manager after any history recording together with whether the `clickEvent`
callback fired (`clickEvent && treatAsClick`, where `treatAsClick` is
`!travelDistance || travelDistance < 5`).  The recording block runs
unconditionally before the `treatAsClick` test: for SVG an
`AttributeChange` is pushed when the transform differs from the captured
one; for HTML, when `left`/`top` differ from the captured pair, the
changes are pushed (wrapped in `beginBatch`/`endBatch` when both
changed). -/
def onMouseUpCommit (h : HistoryManager) (now : Int) (elId : Nat) (info : DragInfo)
    (travelDistance : Nat) (hasClickEvent : Bool) : HistoryManager × Bool :=
  let h2 :=
    match info with
    | .svg it tr =>
      if it ≠ tr then
        (h.push now (.one (.attr now elId "transform" it tr))).mgr
      else h
    | .html ip cl ct =>
      match ip with
      | none => h
      | some (il, it) =>
        let leftChanged : Bool := il != cl
        let topChanged : Bool := it != ct
        if leftChanged || topChanged then
          let ha := if leftChanged && topChanged then h.beginBatch else h
          let hb := if leftChanged then
              (ha.push now (.one (.style now elId "left" il cl))).mgr
            else ha
          let hc := if topChanged then
              (hb.push now (.one (.style now elId "top" it ct))).mgr
            else hb
          if leftChanged && topChanged then (hc.endBatch now).mgr else hc
        else h
  let treatAsClick : Bool := (travelDistance == 0) || decide (travelDistance < 5)
  (h2, hasClickEvent && treatAsClick)

/-- The `newValue` of a `StyleChange`, used to observe in-place
replacement of a stack entry. -/
def Change.styleNewValue : Change → Option String
  | .style _ _ _ _ nv => some nv
  | _ => none

/-! ## Helper lemmas about the DOM model -/

theorem assocGet_assocSet (l : List (String × String)) (k v : String) :
    assocGet (assocSet l k v) k = some v := by
  induction l with
  | nil => simp [assocSet, assocGet]
  | cons kv rest ih =>
    obtain ⟨k', v'⟩ := kv
    by_cases hk : k' = k <;> simp [assocSet, assocGet, hk, ih]

theorem domFind_domSet (d : Dom) (id : Nat) (e e' : ElemState)
    (hf : domFind d id = some e) : domFind (domSet d id e') id = some e' := by
  induction d with
  | nil => simp [domFind] at hf
  | cons ie rest ih =>
    obtain ⟨i, e0⟩ := ie
    by_cases hi : i = id
    · simp [domFind, domSet, hi]
    · simp [domFind, domSet, hi] at hf ⊢
      exact ih hf

theorem domStyle_domSetStyle (d : Dom) (id : Nat) (p v : String) (e : ElemState)
    (hf : domFind d id = some e) (hc : e.isConnected = true) :
    domStyle (domSetStyle d id p v) id p = some v := by
  obtain ⟨ic, st, ats, tx⟩ := e
  replace hc : ic = true := hc
  subst hc
  unfold domSetStyle
  rw [hf]
  simp only [if_true]
  unfold domStyle
  rw [domFind_domSet d id ⟨true, st, ats, tx⟩ _ hf]
  exact assocGet_assocSet st p v

theorem domSetStyle_detached (d : Dom) (id : Nat) (p v : String)
    (hdis : domConnected d id = false) : domSetStyle d id p v = d := by
  unfold domSetStyle
  cases hf : domFind d id with
  | none => rfl
  | some e =>
    have he : e.isConnected = false := by
      unfold domConnected at hdis
      rw [hf] at hdis
      exact hdis
    simp [he]

theorem domSetAttr_detached (d : Dom) (id : Nat) (a : String) (v : Option String)
    (hdis : domConnected d id = false) : domSetAttr d id a v = d := by
  unfold domSetAttr
  cases hf : domFind d id with
  | none => rfl
  | some e =>
    have he : e.isConnected = false := by
      unfold domConnected at hdis
      rw [hf] at hdis
      exact hdis
    simp [he]

theorem domSetText_detached (d : Dom) (id : Nat) (t : String)
    (hdis : domConnected d id = false) : domSetText d id t = d := by
  unfold domSetText
  cases hf : domFind d id with
  | none => rfl
  | some e =>
    have he : e.isConnected = false := by
      unfold domConnected at hdis
      rw [hf] at hdis
      exact hdis
    simp [he]

/-! ## Helper lemmas about push paths -/

/-- The merge path of `push`: with batching off and a top entry that
accepts the merge, the top is replaced in place, the redo stack is
cleared, and nothing is emitted. -/
theorem push_merge_eq (h : HistoryManager) (now : Int) (s : List Change)
    (last c : Change) (hbm : h.batchMode = false) (hst : h.undoStack = s ++ [last])
    (hcm : last.canMerge c = true) :
    (h.push now (.one c)).mgr = { h with undoStack := s ++ [last.merge now c], redoStack := ([] : List Change) }
    ∧ (h.push now (.one c)).emitted = [] := by
  obtain ⟨us, rs, ms, bm, bc, mt⟩ := h
  replace hbm : bm = false := hbm
  subst hbm
  replace hst : us = s ++ [last] := hst
  subst hst
  unfold HistoryManager.push
  simp [normalizeInput, List.getLast?_concat, List.dropLast_concat, hcm]

/-- The non-merge path of `push` with a single change: append, clear redo,
`shift()` once if over the bound, emit the resulting state once.  Under
the stack-size invariant the result is a single `drop` from the front. -/
theorem push_normal_eq (h : HistoryManager) (now : Int) (c : Change)
    (hbm : h.batchMode = false)
    (hnm : ∀ last, h.undoStack.getLast? = some last → last.canMerge c = false)
    (hlen : h.undoStack.length ≤ h.maxSize) :
    (h.push now (.one c)).mgr = { h with undoStack := (h.undoStack ++ [c]).drop (h.undoStack.length + 1 - h.maxSize), redoStack := ([] : List Change) }
    ∧ (h.push now (.one c)).emitted = [(h.push now (.one c)).mgr.state] := by
  obtain ⟨us, rs, ms, bm, bc, mt⟩ := h
  replace hbm : bm = false := hbm
  subst hbm
  replace hnm : ∀ last, us.getLast? = some last → last.canMerge c = false := hnm
  replace hlen : us.length ≤ ms := hlen
  have hdrop : (if ms < us.length + 1 then (us ++ [c]).tail else us ++ [c])
      = (us ++ [c]).drop (us.length + 1 - ms) := by
    split
    · rw [← List.drop_one]
      congr 1
      omega
    · have h0 : us.length + 1 - ms = 0 := by omega
      rw [h0, List.drop_zero]
  unfold HistoryManager.push
  cases hgl : us.getLast? with
  | none =>
    simp [normalizeInput, hgl, HistoryManager.pushNormal, hdrop]
  | some last =>
    simp [normalizeInput, hgl, hnm last hgl, HistoryManager.pushNormal, hdrop]

/-! ## Helper lemmas about undo/redo paths -/

theorem undo_empty_eq (h : HistoryManager) (d : Dom) (hst : h.undoStack = []) :
    h.undo d = ⟨h, d, false, []⟩ := by
  obtain ⟨us, rs, ms, bm, bc, mt⟩ := h
  replace hst : us = [] := hst
  subst hst
  rfl

theorem undo_top_eq (h : HistoryManager) (d : Dom) (s : List Change) (c : Change)
    (d2 : Dom) (hst : h.undoStack = s ++ [c]) (hsu : c.undo d = (d2, false)) :
    h.undo d = ⟨{ h with undoStack := s, redoStack := h.redoStack ++ [c] }, d2, true,
      [HistoryManager.state { h with undoStack := s, redoStack := h.redoStack ++ [c] }]⟩ := by
  obtain ⟨us, rs, ms, bm, bc, mt⟩ := h
  replace hst : us = s ++ [c] := hst
  subst hst
  unfold HistoryManager.undo
  simp [List.getLast?_concat, List.dropLast_concat, hsu]

theorem undo_throw_eq (h : HistoryManager) (d : Dom) (s : List Change) (c : Change)
    (d2 : Dom) (hst : h.undoStack = s ++ [c]) (hsu : c.undo d = (d2, true)) :
    h.undo d = ⟨h, d2, false, []⟩ := by
  obtain ⟨us, rs, ms, bm, bc, mt⟩ := h
  replace hst : us = s ++ [c] := hst
  subst hst
  unfold HistoryManager.undo
  simp [List.getLast?_concat, List.dropLast_concat, hsu]

theorem redo_empty_eq (h : HistoryManager) (d : Dom) (hst : h.redoStack = []) :
    h.redo d = ⟨h, d, false, []⟩ := by
  obtain ⟨us, rs, ms, bm, bc, mt⟩ := h
  replace hst : rs = [] := hst
  subst hst
  rfl

theorem redo_top_eq (h : HistoryManager) (d : Dom) (s : List Change) (c : Change)
    (d2 : Dom) (hst : h.redoStack = s ++ [c]) (hsu : c.redo d = (d2, false)) :
    h.redo d = ⟨{ h with undoStack := h.undoStack ++ [c], redoStack := s }, d2, true,
      [HistoryManager.state { h with undoStack := h.undoStack ++ [c], redoStack := s }]⟩ := by
  obtain ⟨us, rs, ms, bm, bc, mt⟩ := h
  replace hst : rs = s ++ [c] := hst
  subst hst
  unfold HistoryManager.redo
  simp [List.getLast?_concat, List.dropLast_concat, hsu]

theorem redo_throw_eq (h : HistoryManager) (d : Dom) (s : List Change) (c : Change)
    (d2 : Dom) (hst : h.redoStack = s ++ [c]) (hsu : c.redo d = (d2, true)) :
    h.redo d = ⟨h, d2, false, []⟩ := by
  obtain ⟨us, rs, ms, bm, bc, mt⟩ := h
  replace hst : rs = s ++ [c] := hst
  subst hst
  unfold HistoryManager.redo
  simp [List.getLast?_concat, List.dropLast_concat, hsu]

/-! ## Concrete fixtures used by witnesses and counterexamples -/

/-- A manager holding one StyleChange (element 7, `left`, `0px` to `5px`,
created at time 0) as its only undo entry. -/
def egMgr1 : HistoryManager :=
  { undoStack := [Change.style 0 7 "left" "0px" "5px"], redoStack := [], maxSize := 50,
    batchMode := false, batchedChanges := [], mergeTimeout := 1000 }

/-- A document with one connected element 7 whose `left` is `9px`. -/
def egDom1 : Dom := [(7, ⟨true, [("left", "9px")], [], ""⟩)]

/-- A document whose only element 7 is detached. -/
def egDomDetached : Dom := [(7, ⟨false, [("left", "1px")], [("src", "x")], "hi"⟩)]

/-! ## Claim C1 -/

/-- Claim C1: pushing a StyleChange `b` (not batching) on the same element
and property as the StyleChange `a` on top of the undo stack, with
creation timestamps within the merge window, replaces the top with a
single merged entry — the stack does not grow — whose old value is `a`'s
old value and whose new value is `b`'s new value; one `undo()` then sets
the element's property back to `a`'s old value (the element being attached
to the document). -/
theorem claim1_style_merge (h : HistoryManager) (s : List Change) (now ta tb : Int)
    (el : Nat) (p ov1 nv1 ov2 nv2 : String) (d : Dom) (e : ElemState)
    (hbm : h.batchMode = false)
    (hst : h.undoStack = s ++ [Change.style ta el p ov1 nv1])
    (hwin : tb - ta < 1000)
    (hf : domFind d el = some e) (hc : e.isConnected = true) :
    (h.push now (.one (.style tb el p ov2 nv2))).mgr.undoStack = s ++ [Change.style now el p ov1 nv2]
    ∧ (h.push now (.one (.style tb el p ov2 nv2))).mgr.undoStack.length = h.undoStack.length
    ∧ (h.push now (.one (.style tb el p ov2 nv2))).mgr.redoStack = []
    ∧ ((h.push now (.one (.style tb el p ov2 nv2))).mgr.undo d).ok = true
    ∧ domStyle (((h.push now (.one (.style tb el p ov2 nv2))).mgr.undo d).dom) el p = some ov1 := by
  have hcm : (Change.style ta el p ov1 nv1).canMerge (.style tb el p ov2 nv2) = true := by
    simp [Change.canMerge, hwin]
  obtain ⟨hmgr, -⟩ := push_merge_eq h now s _ _ hbm hst hcm
  have hm : Change.merge now (Change.style ta el p ov1 nv1) (Change.style tb el p ov2 nv2)
      = Change.style now el p ov1 nv2 := rfl
  rw [hm] at hmgr
  have hsu : (Change.style now el p ov1 nv2).undo d = (domSetStyle d el p ov1, false) := by
    simp [Change.undo]
  have hundo := undo_top_eq (h.push now (.one (.style tb el p ov2 nv2))).mgr d s
    (Change.style now el p ov1 nv2) (domSetStyle d el p ov1) (by rw [hmgr]) hsu
  refine ⟨by rw [hmgr], ?_, by rw [hmgr], by rw [hundo], ?_⟩
  · rw [hmgr, hst]
    simp
  · rw [hundo]
    exact domStyle_domSetStyle d el p ov1 e hf hc

/-- Witness for C1 at concrete inputs: element 7's `left` was changed
`0px → 5px` at time 0 and `5px → 9px` at time 500; the push at time 500
merges, and one undo restores `left: 0px`. -/
theorem claim1_style_merge_witness :
    (egMgr1.push 500 (.one (.style 500 7 "left" "5px" "9px"))).mgr.undoStack = [] ++ [Change.style 500 7 "left" "0px" "9px"]
    ∧ (egMgr1.push 500 (.one (.style 500 7 "left" "5px" "9px"))).mgr.undoStack.length = egMgr1.undoStack.length
    ∧ (egMgr1.push 500 (.one (.style 500 7 "left" "5px" "9px"))).mgr.redoStack = []
    ∧ ((egMgr1.push 500 (.one (.style 500 7 "left" "5px" "9px"))).mgr.undo egDom1).ok = true
    ∧ domStyle (((egMgr1.push 500 (.one (.style 500 7 "left" "5px" "9px"))).mgr.undo egDom1).dom) 7 "left" = some "0px" :=
  claim1_style_merge egMgr1 [] 500 0 500 7 "left" "0px" "5px" "5px" "9px" egDom1
    ⟨true, [("left", "9px")], [], ""⟩ rfl rfl (by decide) rfl rfl

/-! ## Claim C2 -/

/-- Claim C2: `undo()` (resp. `redo()`) on an empty undo (resp. redo)
stack returns false and changes nothing; otherwise it pops the top entry
and runs its inverse (forward) operation — on success the entry moves to
the opposite stack, a change notification is emitted and true is returned;
if the operation throws, the entry is restored to the stack it came from,
false is returned and nothing is emitted. -/
theorem claim2_undo_redo (h : HistoryManager) (d : Dom) :
    (h.undoStack = [] → h.undo d = ⟨h, d, false, []⟩)
    ∧ (∀ s c d2, h.undoStack = s ++ [c] → c.undo d = (d2, false) →
        h.undo d = ⟨{ h with undoStack := s, redoStack := h.redoStack ++ [c] }, d2, true,
          [HistoryManager.state { h with undoStack := s, redoStack := h.redoStack ++ [c] }]⟩)
    ∧ (∀ s c d2, h.undoStack = s ++ [c] → c.undo d = (d2, true) →
        h.undo d = ⟨h, d2, false, []⟩)
    ∧ (h.redoStack = [] → h.redo d = ⟨h, d, false, []⟩)
    ∧ (∀ s c d2, h.redoStack = s ++ [c] → c.redo d = (d2, false) →
        h.redo d = ⟨{ h with undoStack := h.undoStack ++ [c], redoStack := s }, d2, true,
          [HistoryManager.state { h with undoStack := h.undoStack ++ [c], redoStack := s }]⟩)
    ∧ (∀ s c d2, h.redoStack = s ++ [c] → c.redo d = (d2, true) →
        h.redo d = ⟨h, d2, false, []⟩) :=
  ⟨fun hst => undo_empty_eq h d hst,
   fun s c d2 hst hsu => undo_top_eq h d s c d2 hst hsu,
   fun s c d2 hst hsu => undo_throw_eq h d s c d2 hst hsu,
   fun hst => redo_empty_eq h d hst,
   fun s c d2 hst hsu => redo_top_eq h d s c d2 hst hsu,
   fun s c d2 hst hsu => redo_throw_eq h d s c d2 hst hsu⟩

/-- A manager whose only undo entry is a bare `Change` (its `undo()`
throws). -/
def egMgrThrow : HistoryManager :=
  { undoStack := [Change.base 0], redoStack := [], maxSize := 50,
    batchMode := false, batchedChanges := [], mergeTimeout := 1000 }

/-- Witness for C2: undoing the bare `Change` throws, the entry is pushed
back (the manager is returned unchanged), false is returned and nothing is
emitted. -/
theorem claim2_undo_redo_witness :
    egMgrThrow.undo egDom1 = ⟨egMgrThrow, egDom1, false, []⟩ :=
  (claim2_undo_redo egMgrThrow egDom1).2.2.1 [] (Change.base 0) egDom1 rfl rfl

/-! ## Claim C5 -/

/-- Claim C5: for StyleChange, AttributeChange and TextChange whose target
element is not connected to the document, `undo()` and `redo()` return
without throwing and mutate nothing. -/
theorem claim5_detached (d : Dom) (ts : Int) (el : Nat) (p ov nv a : String)
    (aov anv : Option String) (ot nt : String)
    (hdis : domConnected d el = false) :
    (Change.style ts el p ov nv).undo d = (d, false)
    ∧ (Change.style ts el p ov nv).redo d = (d, false)
    ∧ (Change.attr ts el a aov anv).undo d = (d, false)
    ∧ (Change.attr ts el a aov anv).redo d = (d, false)
    ∧ (Change.text ts el ot nt).undo d = (d, false)
    ∧ (Change.text ts el ot nt).redo d = (d, false) := by
  refine ⟨?_, ?_, ?_, ?_, ?_, ?_⟩ <;>
    simp [Change.undo, Change.redo, domSetStyle_detached _ _ _ _ hdis,
      domSetAttr_detached _ _ _ _ hdis, domSetText_detached _ _ _ hdis]

/-- Witness for C5 on a concrete detached element. -/
theorem claim5_detached_witness :
    (Change.style 0 7 "left" "0px" "5px").undo egDomDetached = (egDomDetached, false)
    ∧ (Change.style 0 7 "left" "0px" "5px").redo egDomDetached = (egDomDetached, false)
    ∧ (Change.attr 0 7 "src" (some "a") none).undo egDomDetached = (egDomDetached, false)
    ∧ (Change.attr 0 7 "src" (some "a") none).redo egDomDetached = (egDomDetached, false)
    ∧ (Change.text 0 7 "x" "y").undo egDomDetached = (egDomDetached, false)
    ∧ (Change.text 0 7 "x" "y").redo egDomDetached = (egDomDetached, false) :=
  claim5_detached egDomDetached 0 7 "left" "0px" "5px" "src" (some "a") none "x" "y" rfl

/-! ## Claim C3 -/

/-- The result of one `undo()` from `egMgr1`: the redo stack now holds one
entry. -/
def egAfterUndo : StepResult := egMgr1.undo egDom1

/-- A non-batched `push` of an empty array performed with a non-empty redo
stack. -/
def egEmptyArrayPush : OpResult := egAfterUndo.mgr.push 5 (.many [])

/-- Counterexample to C3 as stated: with batching off and a non-empty redo
stack, `push([])` (an array of changes) returns early and leaves the redo
stack non-empty. -/
theorem claim3_counterexample :
    egAfterUndo.mgr.batchMode = false
    ∧ egAfterUndo.mgr.redoStack.length = 1
    ∧ egEmptyArrayPush.mgr.redoStack.length = 1 :=
  ⟨rfl, rfl, rfl⟩

/-- Claim C3 as amended: every non-batched `push` of a single Change or of
a non-empty array leaves the redo stack empty (pushing the empty array is
an early-return no-op); likewise `endBatch` with at least one accumulated
change empties the redo stack. -/
theorem claim3_amended (h : HistoryManager) (now : Int) (input : PushInput) :
    (h.batchMode = false → input ≠ PushInput.many [] →
      (h.push now input).mgr.redoStack = [])
    ∧ (∀ now2, 0 < h.batchedChanges.length → (h.endBatch now2).mgr.redoStack = []) := by
  constructor
  · intro hbm hne
    obtain ⟨us, rs, ms, bm, bc, mt⟩ := h
    replace hbm : bm = false := hbm
    subst hbm
    have hnorm : ∃ c, normalizeInput now input = some c := by
      cases input with
      | one c => exact ⟨c, rfl⟩
      | many cs =>
        cases cs with
        | nil => exact absurd rfl hne
        | cons a rest =>
          cases rest with
          | nil => exact ⟨a, rfl⟩
          | cons b rest2 => exact ⟨.batch now (a :: b :: rest2), rfl⟩
    obtain ⟨c, hc⟩ := hnorm
    unfold HistoryManager.push
    cases hgl : us.getLast? with
    | none => simp [hc, hgl, HistoryManager.pushNormal]
    | some last =>
      by_cases hcm : last.canMerge c = true
      · simp [hc, hgl, hcm]
      · simp only [Bool.not_eq_true] at hcm
        simp [hc, hgl, hcm, HistoryManager.pushNormal]
  · intro now2 hlen
    obtain ⟨us, rs, ms, bm, bc, mt⟩ := h
    replace hlen : 0 < bc.length := hlen
    unfold HistoryManager.endBatch
    rw [if_pos hlen]

/-- A manager reached by push, undo (leaving one redo entry), `beginBatch`
and one buffered push: batch mode open, one accumulated change, and a
non-empty redo stack — the real `endBatch` scenario. -/
def egBatchRedo : HistoryManager :=
  (egAfterUndo.mgr.beginBatch.push 5 (.one (.text 5 2 "c" "d"))).mgr

/-- Witness for the amended C3: a concrete single-change push performed
with a non-empty redo stack clears it, and a concrete `endBatch` with one
accumulated change and a non-empty redo stack (batch mode open) clears it
too — the last two conjuncts show the endBatch instance is not vacuous. -/
theorem claim3_amended_witness :
    (egAfterUndo.mgr.push 5 (.one (.text 5 1 "p" "q"))).mgr.redoStack = []
    ∧ (egBatchRedo.endBatch 10).mgr.redoStack = []
    ∧ 0 < egBatchRedo.batchedChanges.length
    ∧ 0 < egBatchRedo.redoStack.length :=
  ⟨(claim3_amended egAfterUndo.mgr 5 (.one (.text 5 1 "p" "q"))).1 rfl (by simp),
   (claim3_amended egBatchRedo 5 (.one (.text 5 1 "p" "q"))).2 10 (by decide),
   by decide, by decide⟩

/-! ## Claim C6 -/

/-- The merge-coalesced push of `egMgr1` at time 500. -/
def egMergePush : OpResult := egMgr1.push 500 (.one (.style 500 7 "left" "5px" "9px"))

/-- Counterexample to C6 as stated: the merge-coalesced push replaces the
top of the undo stack in place (its `newValue` changes from `5px` to
`9px`) yet emits no notification at all. -/
theorem claim6_counterexample :
    egMergePush.emitted = []
    ∧ egMergePush.mgr.undoStack.map Change.styleNewValue = [some "9px"]
    ∧ egMgr1.undoStack.map Change.styleNewValue = [some "5px"]
    ∧ egMergePush.mgr.undoStack.length = egMgr1.undoStack.length :=
  ⟨rfl, rfl, rfl, rfl⟩

/-- `push` with batching off first normalises its input; afterwards it
behaves exactly like pushing the normalised single change. -/
theorem push_normalize (h : HistoryManager) (now : Int) (input : PushInput) (c : Change)
    (hbm : h.batchMode = false) (hc : normalizeInput now input = some c) :
    h.push now input = h.push now (.one c) := by
  obtain ⟨us, rs, ms, bm, bc, mt⟩ := h
  replace hbm : bm = false := hbm
  subst hbm
  unfold HistoryManager.push
  simp only [hc]
  rfl

/-- Claim C6 as amended: a non-batched push that appends a new top entry
emits exactly one notification carrying the resulting state (whose
`canUndo` is true and `canRedo` false), but a push whose change is
merge-coalesced into the existing top entry mutates the stack (replaces
the top, clears the redo stack) and emits nothing. -/
theorem claim6_amended (h : HistoryManager) (now : Int) :
    (∀ s last c, h.batchMode = false → h.undoStack = s ++ [last] → last.canMerge c = true →
        (h.push now (.one c)).emitted = []
        ∧ (h.push now (.one c)).mgr.undoStack = s ++ [last.merge now c]
        ∧ (h.push now (.one c)).mgr.redoStack = [])
    ∧ (∀ input c, h.batchMode = false → 0 < h.maxSize → h.undoStack.length ≤ h.maxSize →
        normalizeInput now input = some c →
        (∀ last, h.undoStack.getLast? = some last → last.canMerge c = false) →
        (h.push now input).emitted = [(h.push now input).mgr.state]
        ∧ (h.push now input).mgr.state.canUndo = true
        ∧ (h.push now input).mgr.state.canRedo = false) := by
  constructor
  · intro s last c hbm hst hcm
    obtain ⟨hmgr, hemit⟩ := push_merge_eq h now s last c hbm hst hcm
    exact ⟨hemit, by rw [hmgr], by rw [hmgr]⟩
  · intro input c hbm hms hlen hc hnm
    rw [push_normalize h now input c hbm hc]
    obtain ⟨hmgr, hemit⟩ := push_normal_eq h now c hbm hnm hlen
    refine ⟨hemit, ?_, ?_⟩
    · have hpos : 0 < (h.push now (.one c)).mgr.undoStack.length := by
        rw [hmgr]
        simp only [List.length_drop, List.length_append, List.length_singleton]
        omega
      simp [HistoryManager.state, HistoryManager.canUndo, hpos]
    · rw [hmgr]
      simp [HistoryManager.state, HistoryManager.canRedo]

/-- Witness for the amended C6: the concrete merge push emits nothing; a
concrete fresh push emits one snapshot with `canUndo` true. -/
theorem claim6_amended_witness :
    ((egMgr1.push 500 (.one (.style 500 7 "left" "5px" "9px"))).emitted = []
      ∧ (egMgr1.push 500 (.one (.style 500 7 "left" "5px" "9px"))).mgr.undoStack
          = [] ++ [(Change.style 0 7 "left" "0px" "5px").merge 500 (.style 500 7 "left" "5px" "9px")]
      ∧ (egMgr1.push 500 (.one (.style 500 7 "left" "5px" "9px"))).mgr.redoStack = []) :=
  (claim6_amended egMgr1 500).1 [] (Change.style 0 7 "left" "0px" "5px")
    (Change.style 500 7 "left" "5px" "9px") rfl rfl (by decide)

/-! ## Claim C7 -/

/-- A manager configured with a 5000 ms merge window. -/
def egCfgMgr : HistoryManager := mkHistoryManager none (some 5000)

/-- Two same-element same-property StyleChanges 2000 ms apart pushed into
the manager configured with a 5000 ms window. -/
def egCfgPush2 : HistoryManager :=
  ((egCfgMgr.push 0 (.one (.style 0 7 "left" "0px" "1px"))).mgr.push 2000
    (.one (.style 2000 7 "left" "1px" "2px"))).mgr

/-- Claim C7 evaluated on the code: the configured `mergeTimeout` is
stored (here 5000) but `StyleChange.canMerge` compares against the literal
1000, so two changes 2000 ms apart do not merge although they are within
the configured window — the undo stack grows to two entries.  The last
conjunct shows the merge decision is exactly the fixed-constant test for
all inputs. -/
theorem claim7_code_behavior :
    egCfgMgr.mergeTimeout = 5000
    ∧ (Change.style 0 7 "left" "0px" "1px").canMerge (Change.style 2000 7 "left" "1px" "2px") = false
    ∧ egCfgPush2.undoStack.length = 2
    ∧ ∀ ts ts2 : Int, ∀ el el2 : Nat, ∀ p p2 ov nv ov2 nv2 : String,
        (Change.style ts el p ov nv).canMerge (Change.style ts2 el2 p2 ov2 nv2)
          = (el2 == el && p2 == p && decide (ts2 - ts < 1000)) :=
  ⟨rfl, by decide, rfl, fun _ _ _ _ _ _ _ _ _ _ => rfl⟩

/-! ## Claim C8 -/

/-- A fresh manager in batch mode with one buffered change. -/
def egBatch1 : HistoryManager :=
  ((mkHistoryManager none none).beginBatch.push 0 (.one (.text 0 1 "a" "b"))).mgr

/-- The redundant `beginBatch` call while already batching. -/
def egBatch2 : HistoryManager := egBatch1.beginBatch

/-- The `endBatch` following the redundant `beginBatch`. -/
def egBatch3 : OpResult := egBatch2.endBatch 10

/-- Counterexample to C8 as stated: the change buffered before the
redundant `beginBatch` is no longer in the buffer afterwards, and the next
`endBatch` records no BatchChange at all (the buffer was reset to
empty). -/
theorem claim8_counterexample :
    egBatch1.batchMode = true
    ∧ egBatch1.batchedChanges.length = 1
    ∧ egBatch2.batchedChanges = []
    ∧ egBatch3.mgr.undoStack = [] :=
  ⟨rfl, rfl, rfl, rfl⟩

/-- Claim C8 as amended: `beginBatch` while batch mode is already open
creates no second buffer and batch mode stays open, but the single
accumulation buffer is reset: previously accumulated changes are discarded
and the BatchChange recorded at the next `endBatch` holds only the changes
pushed after the redundant call. -/
theorem claim8_amended (h : HistoryManager) (now1 now2 : Int) (c : Change)
    (hbm : h.batchMode = true) (hlen : h.undoStack.length < h.maxSize) :
    h.beginBatch.batchMode = true
    ∧ h.beginBatch.batchedChanges = []
    ∧ ((h.beginBatch.push now1 (.one c)).mgr.endBatch now2).mgr.undoStack
        = h.undoStack ++ [Change.batch now2 [c]]
    ∧ ((h.beginBatch.push now1 (.one c)).mgr.endBatch now2).mgr.batchMode = false := by
  obtain ⟨us, rs, ms, bm, bc, mt⟩ := h
  replace hlen : us.length < ms := hlen
  have hcond : ¬ (ms < us.length + 1) := by omega
  refine ⟨rfl, rfl, ?_, ?_⟩
  · unfold HistoryManager.beginBatch HistoryManager.push HistoryManager.endBatch
    simp [hcond]
  · unfold HistoryManager.beginBatch HistoryManager.push HistoryManager.endBatch
    simp [hcond]

/-- A manager already in batch mode with a stale buffered change. -/
def egBatchOpen : HistoryManager :=
  { undoStack := [], redoStack := [], maxSize := 50, batchMode := true,
    batchedChanges := [Change.text 0 1 "a" "b"], mergeTimeout := 1000 }

/-- Witness for the amended C8 on a concrete already-batching manager. -/
theorem claim8_amended_witness :
    egBatchOpen.beginBatch.batchMode = true
    ∧ egBatchOpen.beginBatch.batchedChanges = []
    ∧ ((egBatchOpen.beginBatch.push 5 (.one (.text 5 2 "c" "d"))).mgr.endBatch 10).mgr.undoStack
        = egBatchOpen.undoStack ++ [Change.batch 10 [Change.text 5 2 "c" "d"]]
    ∧ ((egBatchOpen.beginBatch.push 5 (.one (.text 5 2 "c" "d"))).mgr.endBatch 10).mgr.batchMode = false :=
  claim8_amended egBatchOpen 5 10 (Change.text 5 2 "c" "d") rfl (by decide)

/-! ## Claim C9 -/

/-- A one-mousemove drag (travelDistance 1, below the click threshold)
whose single move shifted `el.style.left` from the captured empty value to
`10px`. -/
def egDragCommit : HistoryManager × Bool :=
  onMouseUpCommit (mkHistoryManager none none) 100 7 (.html (some ("", "")) "10px" "") 1 false

/-- Counterexample to C9 as stated: although the travel distance (1) is
below the threshold of 5, the commit handler pushes a StyleChange for the
changed `left` — history recording is not suppressed. -/
theorem claim9_counterexample :
    (1 : Nat) < 5
    ∧ egDragCommit.1.undoStack.length = 1
    ∧ egDragCommit.1.undoStack.map Change.styleNewValue = [some "10px"] :=
  ⟨by decide, rfl, rfl⟩

/-- Claim C9 as amended: the travel-distance threshold only decides
whether the click callback fires (`clickEvent && (travelDistance = 0 or
travelDistance < 5)`); the history effect of the commit handler does not
depend on the travel distance at all, and is driven solely by whether the
current `left`/`top` (or SVG transform) differ from the values captured at
mouse-down — in particular, when nothing differs (or no initial position
was captured) no Change is recorded. -/
theorem claim9_amended :
    (∀ (h : HistoryManager) (now : Int) (elId : Nat) (info : DragInfo) (td td' : Nat) (ce : Bool),
        (onMouseUpCommit h now elId info td ce).1 = (onMouseUpCommit h now elId info td' ce).1)
    ∧ (∀ (h : HistoryManager) (now : Int) (elId : Nat) (info : DragInfo) (td : Nat) (ce : Bool),
        (onMouseUpCommit h now elId info td ce).2 = (ce && ((td == 0) || decide (td < 5))))
    ∧ (∀ (h : HistoryManager) (now : Int) (elId : Nat) (il it : String) (td : Nat) (ce : Bool),
        (onMouseUpCommit h now elId (.html (some (il, it)) il it) td ce).1 = h)
    ∧ (∀ (h : HistoryManager) (now : Int) (elId : Nat) (cl ct : String) (td : Nat) (ce : Bool),
        (onMouseUpCommit h now elId (.html none cl ct) td ce).1 = h) := by
  refine ⟨fun h now elId info td td' ce => rfl, fun h now elId info td ce => rfl, ?_, fun h now elId cl ct td ce => rfl⟩
  intro h now elId il it td ce
  simp [onMouseUpCommit]

/-! ## Claim C10 -/

/-- Each listed change is within the (hard-coded) 1000 ms window of its
predecessor's timestamp, the first being measured against `t0`. -/
def chainWithin : Int → List (Int × String × String) → Prop
  | _, [] => True
  | t0, (t, _, _) :: rest => t - t0 < 1000 ∧ chainWithin t rest

/-- Push a burst of StyleChanges on one element and property; each change
is created and pushed at its own timestamp (as the tools do: construction
is immediately followed by `push`). -/
def pushStylesAt (el : Nat) (p : String) : HistoryManager → List (Int × String × String) → HistoryManager
  | h, [] => h
  | h, (t, ov, nv) :: rest =>
    pushStylesAt el p (h.push t (.one (.style t el p ov nv))).mgr rest

/-- The timestamp of the last change of a burst (or `t0` for an empty
burst). -/
def lastTime (t0 : Int) : List (Int × String × String) → Int
  | [] => t0
  | (t, _, _) :: rest => lastTime t rest

/-- The `newValue` of the last change of a burst (or `nv0` for an empty
burst). -/
def lastNew (nv0 : String) : List (Int × String × String) → String
  | [] => nv0
  | (_, _, nv) :: rest => lastNew nv rest

/-- A burst whose consecutive gaps are all inside the window collapses
into the single top entry, whose timestamp slides to the last push. -/
theorem pushStyles_collapse (items : List (Int × String × String)) :
    ∀ (h : HistoryManager) (s : List Change) (t0 : Int) (el : Nat) (p ov0 nv0 : String),
    h.batchMode = false →
    h.undoStack = s ++ [Change.style t0 el p ov0 nv0] →
    chainWithin t0 items →
    (pushStylesAt el p h items).undoStack
      = s ++ [Change.style (lastTime t0 items) el p ov0 (lastNew nv0 items)] := by
  induction items with
  | nil =>
    intro h s t0 el p ov0 nv0 _ hst _
    simpa [pushStylesAt, lastTime, lastNew] using hst
  | cons item rest ih =>
    obtain ⟨t, ov, nv⟩ := item
    intro h s t0 el p ov0 nv0 hbm hst hchain
    obtain ⟨hwin, hchain'⟩ := hchain
    have hcm : (Change.style t0 el p ov0 nv0).canMerge (.style t el p ov nv) = true := by
      simp [Change.canMerge, hwin]
    obtain ⟨hmgr, -⟩ := push_merge_eq h t s _ _ hbm hst hcm
    have hm : Change.merge t (Change.style t0 el p ov0 nv0) (Change.style t el p ov nv)
        = Change.style t el p ov0 nv := rfl
    rw [hm] at hmgr
    have hstep : pushStylesAt el p h ((t, ov, nv) :: rest)
        = pushStylesAt el p (h.push t (.one (.style t el p ov nv))).mgr rest := rfl
    rw [hstep]
    have hbm' : (h.push t (.one (.style t el p ov nv))).mgr.batchMode = false := by
      rw [hmgr]
      exact hbm
    exact ih _ s t el p ov0 nv hbm' (by rw [hmgr]) hchain'

/-- Claim C10: the entry replacing the top on a merge is a freshly
constructed StyleChange stamped with the merge time (the stack's timestamps
become the old ones with the merge time at the top), so the merge window
slides: a burst of same-element same-property StyleChanges collapses to a
single undo entry whenever each consecutive pair is within the window,
even if the whole burst spans longer than one window. -/
theorem claim10_sliding_window (h : HistoryManager) (s : List Change)
    (now ta tb t0 : Int) (el : Nat) (p ov1 nv1 ov2 nv2 : String)
    (items : List (Int × String × String))
    (hbm : h.batchMode = false) :
    (h.undoStack = s ++ [Change.style ta el p ov1 nv1] → tb - ta < 1000 →
      (h.push now (.one (.style tb el p ov2 nv2))).mgr.undoStack
          = s ++ [Change.style now el p ov1 nv2]
      ∧ (h.push now (.one (.style tb el p ov2 nv2))).mgr.undoStack.map Change.timestampOf
          = s.map Change.timestampOf ++ [now])
    ∧ (h.undoStack = s ++ [Change.style t0 el p ov1 nv1] → chainWithin t0 items →
      (pushStylesAt el p h items).undoStack
        = s ++ [Change.style (lastTime t0 items) el p ov1 (lastNew nv1 items)]) := by
  constructor
  · intro hst hwin
    have hcm : (Change.style ta el p ov1 nv1).canMerge (.style tb el p ov2 nv2) = true := by
      simp [Change.canMerge, hwin]
    obtain ⟨hmgr, -⟩ := push_merge_eq h now s _ _ hbm hst hcm
    have hm : Change.merge now (Change.style ta el p ov1 nv1) (Change.style tb el p ov2 nv2)
        = Change.style now el p ov1 nv2 := rfl
    rw [hm] at hmgr
    refine ⟨by rw [hmgr], ?_⟩
    rw [hmgr]
    simp [Change.timestampOf]
  · intro hst hchain
    exact pushStyles_collapse items h s t0 el p ov1 nv1 hbm hst hchain

/-- Witness for C10: a burst at times 600, 1200 and 1800 (each gap 600 ms,
total span 1800 ms — longer than the 1000 ms window) pushed onto `egMgr1`
(whose top was created at time 0) collapses to one entry `0px → 8px`
stamped 1800. -/
theorem claim10_sliding_window_witness :
    (pushStylesAt 7 "left" egMgr1
        [(600, "5px", "6px"), (1200, "6px", "7px"), (1800, "7px", "8px")]).undoStack
      = [] ++ [Change.style (lastTime 0 [(600, "5px", "6px"), (1200, "6px", "7px"), (1800, "7px", "8px")])
          7 "left" "0px" (lastNew "5px" [(600, "5px", "6px"), (1200, "6px", "7px"), (1800, "7px", "8px")])] :=
  (claim10_sliding_window egMgr1 [] 0 0 0 0 7 "left" "0px" "5px" "" ""
      [(600, "5px", "6px"), (1200, "6px", "7px"), (1800, "7px", "8px")] rfl).2
    rfl ⟨by decide, by decide, by decide, trivial⟩

/-! ## Claim C4: bounded growth -/

/-- The joint stack-size invariant: the undo and redo stacks together
never hold more than `maxSize` entries (the redo stack only ever receives
entries popped from the undo stack). -/
def sizeInv (h : HistoryManager) : Prop :=
  h.undoStack.length + h.redoStack.length ≤ h.maxSize

/-- In batch mode `push` only appends to the accumulation buffer. -/
theorem push_batch_mgr (h : HistoryManager) (now : Int) (input : PushInput)
    (hbm : h.batchMode = true) :
    (h.push now input).mgr = { h with batchedChanges := h.batchedChanges ++
        (match input with | .one c => [c] | .many cs => cs) }
    ∧ (h.push now input).emitted = [] := by
  obtain ⟨us, rs, ms, bm, bc, mt⟩ := h
  replace hbm : bm = true := hbm
  subst hbm
  cases input <;> exact ⟨rfl, rfl⟩

/-- With batching off, pushing the empty array is an early-return no-op. -/
theorem push_emptyArray (h : HistoryManager) (now : Int)
    (hbm : h.batchMode = false) :
    h.push now (.many []) = { mgr := h, emitted := [] } := by
  obtain ⟨us, rs, ms, bm, bc, mt⟩ := h
  replace hbm : bm = false := hbm
  subst hbm
  rfl

/-- Only the empty array normalises to nothing. -/
theorem normalizeInput_eq_none (now : Int) (input : PushInput)
    (hn : normalizeInput now input = none) : input = .many [] := by
  cases input with
  | one c => simp [normalizeInput] at hn
  | many cs =>
    cases cs with
    | nil => rfl
    | cons a rest => cases rest <;> simp [normalizeInput] at hn

theorem push_sizeInv (h : HistoryManager) (now : Int) (input : PushInput)
    (hI : sizeInv h) :
    sizeInv (h.push now input).mgr ∧ (h.push now input).mgr.maxSize = h.maxSize := by
  by_cases hbm : h.batchMode = true
  · obtain ⟨hm, -⟩ := push_batch_mgr h now input hbm
    rw [hm]
    exact ⟨hI, rfl⟩
  · replace hbm : h.batchMode = false := by simpa using hbm
    cases hnorm : normalizeInput now input with
    | none =>
      have hin : input = .many [] := normalizeInput_eq_none now input hnorm
      subst hin
      rw [push_emptyArray h now hbm]
      exact ⟨hI, rfl⟩
    | some c =>
      rw [push_normalize h now input c hbm hnorm]
      have hlen : h.undoStack.length ≤ h.maxSize := by
        unfold sizeInv at hI
        omega
      cases hgl : h.undoStack.getLast? with
      | none =>
        have hnm : ∀ last, h.undoStack.getLast? = some last → last.canMerge c = false := by
          intro last hl
          rw [hgl] at hl
          simp at hl
        obtain ⟨hm, -⟩ := push_normal_eq h now c hbm hnm hlen
        rw [hm]
        refine ⟨?_, rfl⟩
        unfold sizeInv
        simp only [List.length_drop, List.length_append, List.length_singleton,
          List.length_nil]
        omega
      | some last =>
        by_cases hcm : last.canMerge c = true
        · obtain ⟨s, hs⟩ := List.getLast?_eq_some_iff.mp hgl
          obtain ⟨hm, -⟩ := push_merge_eq h now s last c hbm hs hcm
          rw [hm]
          refine ⟨?_, rfl⟩
          have hsl : h.undoStack.length = s.length + 1 := by
            rw [hs]
            simp
          unfold sizeInv
          simp only [List.length_append, List.length_singleton, List.length_nil]
          omega
        · replace hcm : last.canMerge c = false := by simpa using hcm
          have hnm : ∀ l2, h.undoStack.getLast? = some l2 → l2.canMerge c = false := by
            intro l2 hl
            rw [hgl] at hl
            cases hl
            exact hcm
          obtain ⟨hm, -⟩ := push_normal_eq h now c hbm hnm hlen
          rw [hm]
          refine ⟨?_, rfl⟩
          unfold sizeInv
          simp only [List.length_drop, List.length_append, List.length_singleton,
            List.length_nil]
          omega

theorem endBatch_sizeInv (h : HistoryManager) (now : Int)
    (hI : sizeInv h) :
    sizeInv (h.endBatch now).mgr ∧ (h.endBatch now).mgr.maxSize = h.maxSize := by
  obtain ⟨us, rs, ms, bm, bc, mt⟩ := h
  replace hI : us.length + rs.length ≤ ms := hI
  unfold HistoryManager.endBatch
  by_cases hbc : 0 < bc.length
  · rw [if_pos hbc]
    refine ⟨?_, rfl⟩
    unfold sizeInv
    dsimp only
    split
    next hcond =>
      simp only [List.length_append, List.length_singleton] at hcond
      simp only [List.length_drop, List.length_tail, List.length_append,
        List.length_singleton, List.length_nil]
      omega
    next hcond =>
      simp only [List.length_append, List.length_singleton] at hcond
      simp only [List.length_append, List.length_singleton, List.length_nil]
      omega
  · rw [if_neg hbc]
    exact ⟨hI, rfl⟩

theorem undo_sizeInv (h : HistoryManager) (d : Dom)
    (hI : sizeInv h) :
    sizeInv (h.undo d).mgr ∧ (h.undo d).mgr.maxSize = h.maxSize := by
  cases hgl : h.undoStack.getLast? with
  | none =>
    rw [undo_empty_eq h d (List.getLast?_eq_none_iff.mp hgl)]
    exact ⟨hI, rfl⟩
  | some c =>
    obtain ⟨s, hs⟩ := List.getLast?_eq_some_iff.mp hgl
    have hsl : h.undoStack.length = s.length + 1 := by
      rw [hs]
      simp
    rcases hr : c.undo d with ⟨d2, th⟩
    cases th with
    | false =>
      rw [undo_top_eq h d s c d2 hs hr]
      refine ⟨?_, rfl⟩
      unfold sizeInv at hI ⊢
      simp only [List.length_append, List.length_singleton]
      omega
    | true =>
      rw [undo_throw_eq h d s c d2 hs hr]
      exact ⟨hI, rfl⟩

theorem redo_sizeInv (h : HistoryManager) (d : Dom)
    (hI : sizeInv h) :
    sizeInv (h.redo d).mgr ∧ (h.redo d).mgr.maxSize = h.maxSize := by
  cases hgl : h.redoStack.getLast? with
  | none =>
    rw [redo_empty_eq h d (List.getLast?_eq_none_iff.mp hgl)]
    exact ⟨hI, rfl⟩
  | some c =>
    obtain ⟨s, hs⟩ := List.getLast?_eq_some_iff.mp hgl
    have hsl : h.redoStack.length = s.length + 1 := by
      rw [hs]
      simp
    rcases hr : c.redo d with ⟨d2, th⟩
    cases th with
    | false =>
      rw [redo_top_eq h d s c d2 hs hr]
      refine ⟨?_, rfl⟩
      unfold sizeInv at hI ⊢
      simp only [List.length_append, List.length_singleton]
      omega
    | true =>
      rw [redo_throw_eq h d s c d2 hs hr]
      exact ⟨hI, rfl⟩

theorem execOp_sizeInv (hd : HistoryManager × Dom) (op : HOp)
    (hI : sizeInv hd.1) :
    sizeInv (execOp hd op).1 ∧ (execOp hd op).1.maxSize = hd.1.maxSize := by
  cases op with
  | pushOp now input => exact push_sizeInv hd.1 now input hI
  | beginBatchOp => exact ⟨hI, rfl⟩
  | endBatchOp now => exact endBatch_sizeInv hd.1 now hI
  | undoOp => exact undo_sizeInv hd.1 hd.2 hI
  | redoOp => exact redo_sizeInv hd.1 hd.2 hI
  | clearOp =>
    refine ⟨?_, rfl⟩
    unfold sizeInv
    simp [execOp, HistoryManager.clear]

theorem execOps_sizeInv (ops : List HOp) :
    ∀ hd : HistoryManager × Dom, sizeInv hd.1 →
    sizeInv (execOps hd ops).1 ∧ (execOps hd ops).1.maxSize = hd.1.maxSize := by
  induction ops with
  | nil =>
    intro hd hI
    exact ⟨hI, rfl⟩
  | cons op rest ih =>
    intro hd hI
    have hstep : execOps hd (op :: rest) = execOps (execOp hd op) rest := rfl
    rw [hstep]
    obtain ⟨hsi, hsm⟩ := execOp_sizeInv hd op hI
    obtain ⟨h1, h2⟩ := ih (execOp hd op) hsi
    exact ⟨h1, h2.trans hsm⟩

/-- Pushing a list of single changes one at a time, each at its own
creation timestamp. -/
def pushEach (h : HistoryManager) (cs : List Change) : HistoryManager :=
  cs.foldl (fun h c => (h.push (Change.timestampOf c) (.one c)).mgr) h

/-- Arithmetic of the per-push front eviction: folding the one-step drop
formula over a list is one big drop. -/
theorem drop_chain {α : Type} (us : List α) (c : α) (rest : List α) (m : Nat)
    (hn : us.length ≤ m) :
    (((us ++ [c]).drop (us.length + 1 - m)) ++ rest).drop
        ((((us ++ [c]).drop (us.length + 1 - m)).length) + rest.length - m)
      = (us ++ c :: rest).drop (us.length + (rest.length + 1) - m) := by
  rw [← List.drop_append_of_le_length (by
    simp only [List.length_append, List.length_singleton]
    omega)]
  rw [List.drop_drop]
  have hL : us ++ [c] ++ rest = us ++ c :: rest := by simp
  rw [hL]
  congr 1
  simp only [List.length_drop, List.length_append, List.length_singleton]
  omega

/-- Pushing pairwise non-mergeable changes never merges: the undo stack is
the suffix of the concatenation that fits in `maxSize`, everything older
having been evicted from the front. -/
theorem pushEach_stack (cs : List Change) :
    ∀ (h : HistoryManager),
    h.batchMode = false →
    h.undoStack.length ≤ h.maxSize →
    (∀ a, a ∈ h.undoStack → ∀ b, b ∈ cs → a.canMerge b = false) →
    (∀ a, a ∈ cs → ∀ b, b ∈ cs → a.canMerge b = false) →
    (pushEach h cs).undoStack
        = (h.undoStack ++ cs).drop (h.undoStack.length + cs.length - h.maxSize)
    ∧ (pushEach h cs).maxSize = h.maxSize := by
  induction cs with
  | nil =>
    intro h hbm hlen _ _
    refine ⟨?_, rfl⟩
    simp only [pushEach, List.foldl_nil, List.append_nil, List.length_nil, Nat.add_zero]
    rw [Nat.sub_eq_zero_of_le hlen, List.drop_zero]
  | cons c rest ih =>
    intro h hbm hlen hmem hpair
    have hnm : ∀ last, h.undoStack.getLast? = some last → last.canMerge c = false := by
      intro last hgl
      exact hmem last (List.mem_of_getLast?_eq_some hgl) c (List.mem_cons_self c rest)
    obtain ⟨hmgr, -⟩ := push_normal_eq h (Change.timestampOf c) c hbm hnm hlen
    have hstep : pushEach h (c :: rest)
        = pushEach ((h.push (Change.timestampOf c) (.one c)).mgr) rest := rfl
    have hbm' : (h.push (Change.timestampOf c) (.one c)).mgr.batchMode = false := by
      rw [hmgr]
      exact hbm
    have hms' : (h.push (Change.timestampOf c) (.one c)).mgr.maxSize = h.maxSize := by
      rw [hmgr]
    have hus' : (h.push (Change.timestampOf c) (.one c)).mgr.undoStack
        = (h.undoStack ++ [c]).drop (h.undoStack.length + 1 - h.maxSize) := by
      rw [hmgr]
    have hlen' : (h.push (Change.timestampOf c) (.one c)).mgr.undoStack.length
        ≤ (h.push (Change.timestampOf c) (.one c)).mgr.maxSize := by
      rw [hus', hms']
      simp only [List.length_drop, List.length_append, List.length_singleton]
      omega
    have hmem' : ∀ a, a ∈ (h.push (Change.timestampOf c) (.one c)).mgr.undoStack →
        ∀ b, b ∈ rest → a.canMerge b = false := by
      intro a ha b hb
      rw [hus'] at ha
      have ha' := List.mem_of_mem_drop ha
      rcases List.mem_append.mp ha' with hcase | hcase
      · exact hmem a hcase b (List.mem_cons_of_mem c hb)
      · have hac : a = c := by simpa using hcase
        subst hac
        exact hpair a (List.mem_cons_self a rest) b (List.mem_cons_of_mem a hb)
    have hrest : ∀ a, a ∈ rest → ∀ b, b ∈ rest → a.canMerge b = false := by
      intro a ha b hb
      exact hpair a (List.mem_cons_of_mem c ha) b (List.mem_cons_of_mem c hb)
    obtain ⟨hstack, hms2⟩ := ih _ hbm' hlen' hmem' hrest
    rw [hstep]
    constructor
    · rw [hstack, hus', hms']
      exact drop_chain h.undoStack c rest h.maxSize hlen
    · rw [hms2, hms']

/-- Claim C4: the undo stack never exceeds `maxSize` after any sequence of
operations from a freshly constructed manager, and pushing
`maxSize + k` pairwise non-mergeable changes leaves exactly the newest
`maxSize` of them, the `k` oldest having been evicted oldest-first. -/
theorem claim4_bounded_growth :
    (∀ (maxSize? : Option Nat) (mt? : Option Int) (d : Dom) (ops : List HOp),
      (execOps (mkHistoryManager maxSize? mt?, d) ops).1.undoStack.length
          ≤ (mkHistoryManager maxSize? mt?).maxSize
      ∧ (execOps (mkHistoryManager maxSize? mt?, d) ops).1.maxSize
          = (mkHistoryManager maxSize? mt?).maxSize)
    ∧ (∀ (maxSize? : Option Nat) (mt? : Option Int) (cs : List Change) (k : Nat),
      (∀ a, a ∈ cs → ∀ b, b ∈ cs → a.canMerge b = false) →
      cs.length = (mkHistoryManager maxSize? mt?).maxSize + k →
      (pushEach (mkHistoryManager maxSize? mt?) cs).undoStack = cs.drop k
      ∧ (pushEach (mkHistoryManager maxSize? mt?) cs).undoStack.length
          = (mkHistoryManager maxSize? mt?).maxSize) := by
  constructor
  · intro maxSize? mt? d ops
    have hI0 : sizeInv (mkHistoryManager maxSize? mt?) := by
      simp [sizeInv, mkHistoryManager]
    obtain ⟨hI, hms⟩ := execOps_sizeInv ops (mkHistoryManager maxSize? mt?, d) hI0
    have hms2 : (mkHistoryManager maxSize? mt?, d).1.maxSize
        = (mkHistoryManager maxSize? mt?).maxSize := rfl
    rw [hms2] at hms
    unfold sizeInv at hI
    rw [hms] at hI
    exact ⟨by omega, hms⟩
  · intro maxSize? mt? cs k hpair hk
    have hbm : (mkHistoryManager maxSize? mt?).batchMode = false := by
      simp [mkHistoryManager]
    have hlen : (mkHistoryManager maxSize? mt?).undoStack.length
        ≤ (mkHistoryManager maxSize? mt?).maxSize := by
      simp [mkHistoryManager]
    have hmem : ∀ a, a ∈ (mkHistoryManager maxSize? mt?).undoStack →
        ∀ b, b ∈ cs → a.canMerge b = false := by
      intro a ha
      simp [mkHistoryManager] at ha
    obtain ⟨hstack, -⟩ := pushEach_stack cs (mkHistoryManager maxSize? mt?) hbm hlen hmem hpair
    have hus0 : (mkHistoryManager maxSize? mt?).undoStack = [] := rfl
    rw [hus0] at hstack
    simp only [List.nil_append, List.length_nil, Nat.zero_add] at hstack
    rw [hk] at hstack
    have hkk : (mkHistoryManager maxSize? mt?).maxSize + k - (mkHistoryManager maxSize? mt?).maxSize = k := by
      omega
    rw [hkk] at hstack
    refine ⟨hstack, ?_⟩
    rw [hstack]
    simp only [List.length_drop, hk]
    omega

/-- Witness for C4: with `maxSize` 2, pushing three pairwise non-mergeable
TextChanges leaves exactly the two newest; an arbitrary operation sequence
(two pushes, an undo, a redo) also respects the bound. -/
theorem claim4_bounded_growth_witness :
    (execOps (mkHistoryManager (some 2) none, egDom1)
        [.pushOp 0 (.one (.text 0 1 "a" "b")), .pushOp 1 (.one (.text 1 2 "c" "d")),
         .undoOp, .redoOp]).1.undoStack.length ≤ (mkHistoryManager (some 2) none).maxSize
    ∧ (pushEach (mkHistoryManager (some 2) none)
        [.text 0 1 "a" "b", .text 1 2 "c" "d", .text 2 3 "e" "f"]).undoStack
        = [Change.text 0 1 "a" "b", .text 1 2 "c" "d", .text 2 3 "e" "f"].drop 1 :=
  ⟨((claim4_bounded_growth).1 (some 2) none egDom1
      [.pushOp 0 (.one (.text 0 1 "a" "b")), .pushOp 1 (.one (.text 1 2 "c" "d")),
       .undoOp, .redoOp]).1,
   ((claim4_bounded_growth).2 (some 2) none
      [.text 0 1 "a" "b", .text 1 2 "c" "d", .text 2 3 "e" "f"] 1
      (by decide) rfl).1⟩

end VisBug
